import Mathlib

/-!
Shallow embedding of `src/ruby_processor.py` from the word-ruby repository.

The engine scans a docx document (a list of paragraphs, each a list of run /
ruby-annotation siblings) for target words and splices ruby annotations in
place, under a repetition mode (`once` / `per_page` / `all`).  Python text is
modelled as `List Char` (Python strings are code-point sequences), the
scan/splice/restart `while` loop of `apply_ruby_to_document` as a fuelled
recursion, and the two eligibility dicts as lists of the words currently
mapped to `True`.
-/

namespace WordRuby

/-- One entry of `ruby_settings`: a dict `{'word': ..., 'ruby': ...}`. -/
structure RubySetting where
  word : List Char
  ruby : List Char

/-- A `w:r` run as the engine observes it through python-docx: its opaque
`w:rPr` formatting block (absent or present), whether its serialized XML
contains a page-break marker (`w:lastRenderedPageBreak` or a
`w:br` of page type, line 132 of the source), whether its `w:t` carries the
preserve-space attribute, and its plain text. -/
structure Run where
  rPr : Option String
  brk : Bool
  spacePreserve : Bool
  text : List Char

/-- Generic OOXML tree value, mirroring the `OxmlElement` trees built by
`create_ruby_element`: an element with a tag, attributes and children, or a
text payload (the `.text` assigned to a `w:t` element). -/
inductive Xml where
  | elem (tag : String) (attrs : List (String × String)) (children : List Xml)
  | textNode (s : List Char)

/-- `create_ruby_element(text, ruby_text)` (source lines 7-71): builds the
`w:ruby` container holding the `w:rubyPr` properties block (the code appends
only the `w:rubyAlign` value), the `w:rt` reading part and the `w:rubyBase`
base part, in that order. -/
def create_ruby_element (t ruby_text : List Char) : Xml :=
  Xml.elem "w:ruby" []
    [Xml.elem "w:rubyPr" [] [Xml.elem "w:rubyAlign" [("w:val", "distributeSpace")] []],
     Xml.elem "w:rt" [] [Xml.elem "w:r" [] [Xml.elem "w:t" [] [Xml.textNode ruby_text]]],
     Xml.elem "w:rubyBase" [] [Xml.elem "w:r" [] [Xml.elem "w:t" [] [Xml.textNode t]]]]

/-- A direct child of a `w:p` paragraph element that the engine can encounter:
a `w:r` run (enumerated by `paragraph.runs`) or an inserted `w:ruby`
annotation element (skipped by `paragraph.runs`, which lists only direct
`w:r` children). -/
inductive Node where
  | run (r : Run)
  | annot (x : Xml)

/-- The two eligibility dicts of `apply_ruby_to_document`:
`global_applied` (mode `once`) and `items_applied_on_page` (mode `per_page`),
each represented by the list of words currently mapped to `True`. -/
structure TrackState where
  globalApplied : List (List Char)
  pageApplied : List (List Char)

/-- Dict lookup `d[word]` for the two all-`False`-initialised Bool dicts:
`True` exactly when the word has been recorded. -/
def lookupApplied : List (List Char) → List Char → Bool
  | [], _ => false
  | x :: xs, w => x == w || lookupApplied xs w

/-- Stable insertion of a setting into a list already ordered by word length
descending: the new element goes before the first element whose word is no
longer than it (so earlier-registered settings win ties). -/
def insertLen (a : RubySetting) : List RubySetting → List RubySetting
  | [] => [a]
  | b :: bs => if b.word.length ≤ a.word.length then a :: b :: bs else b :: insertLen a bs

/-- `sorted(ruby_settings, key=lambda x: len(x['word']), reverse=True)`
(source line 90): a stable sort by word length, longest first. -/
def sortSettings : List RubySetting → List RubySetting
  | [] => []
  | a :: rest => insertLen a (sortSettings rest)

/-- Whether `pat` occurs at the very start of `s` (character-exact compare,
as Python substring search does). -/
def beginsWith : List Char → List Char → Bool
  | [], _ => true
  | _ :: _, [] => false
  | p :: ps, c :: cs => p == c && beginsWith ps cs

/-- Python `text.find(word)` (source line 153): index of the first occurrence
of `pat` in `text`, or `none` (`-1` in Python) when absent.  An empty pattern
is found at index 0, as in Python. -/
def findSub (pat : List Char) : List Char → Option Nat
  | [] => if pat.isEmpty then some 0 else none
  | c :: rest => if beginsWith pat (c :: rest) then some 0 else (findSub pat rest).map (· + 1)

/-- The mode guards of source lines 148-151: skip a rule when mode `once` has
already applied its word globally, or mode `per_page` has applied it on the
current page. -/
def skipRule (mode : String) (st : TrackState) (w : List Char) : Bool :=
  (mode == "once" && lookupApplied st.globalApplied w) ||
  (mode == "per_page" && lookupApplied st.pageApplied w)

/-- The `for setting in sorted_settings` search of source lines 143-156:
first non-skipped setting whose word occurs in `text` wins, together with
the occurrence index. -/
def findRuleMatch (mode : String) (st : TrackState) (text : List Char) :
    List RubySetting → Option (RubySetting × Nat)
  | [] => none
  | s :: rest =>
    if skipRule mode st s.word then findRuleMatch mode st text rest
    else
      match findSub s.word text with
      | some idx => some (s, idx)
      | none => findRuleMatch mode st text rest

/-- Source lines 158-162: record the application in the dict of the active
mode (`global_applied` for `once`, `items_applied_on_page` for `per_page`). -/
def markApplied (mode : String) (w : List Char) (st : TrackState) : TrackState :=
  let st1 := if mode == "once" then { st with globalApplied := w :: st.globalApplied } else st
  if mode == "per_page" then { st1 with pageApplied := w :: st1.pageApplied } else st1

/-- First character is whitespace (used to model python-docx `add_t`, which
sets the preserve-space attribute when `text.strip()` is shorter than
`text`). -/
def headIsWS : List Char → Bool
  | [] => false
  | c :: _ => c.isWhitespace

/-- Last character is whitespace. -/
def lastIsWS (s : List Char) : Bool := headIsWS s.reverse

/-- Effect of `run.text = text_before` (source line 173) on the matched run:
python-docx `CT_R.text` first clears every non-`rPr` child (so a page-break
marker or a stale preserve-space `w:t` does not survive) and then re-appends
the text, setting preserve-space exactly when the new text has leading or
trailing whitespace. -/
def truncRun (r : Run) (bef : List Char) : Run :=
  { r with text := bef, brk := false, spacePreserve := headIsWS bef || lastIsWS bef }

/-- The `w:r` built for the text after the match (source lines 186-198):
fresh element, deep copy of the original `rPr`, no page-break marker, the
preserve-space attribute set exactly when the after-text starts or ends with
the character `' '` (Python compares `== ' '`), text set to the after-text. -/
def mkAfterRun (r : Run) (aft : List Char) : Run :=
  { rPr := r.rPr, brk := false,
    spacePreserve :=
      !aft.isEmpty &&
        ((match aft with | c :: _ => c == ' ' | [] => false) ||
         (match aft.getLast? with | some c => c == ' ' | none => false)),
    text := aft }

/-- The splice of source lines 169-200 performed once a match `(s, idx)` is
found in run `r`: truncate `r` to the before-text, insert the ruby element
right after it, and insert an after-run iff the after-text is non-empty;
the application is recorded in the tracker and the match flag raised. -/
def spliceRun (mode : String) (st : TrackState) (r : Run) (s : RubySetting) (idx : Nat)
    (rest : List Node) : List Node × TrackState × Bool :=
  let bef := r.text.take idx
  let aft := r.text.drop (idx + s.word.length)
  (Node.run (truncRun r bef) :: Node.annot (create_ruby_element s.word s.ruby) ::
      (if aft.isEmpty then [] else [Node.run (mkAfterRun r aft)]) ++ rest,
    markApplied mode s.word st, true)

/-- One left-to-right walk of the `while i < len(paragraph.runs)` loop
(source lines 124-236) up to the first splice: annotation elements are not
runs and are stepped over; a run whose XML shows a page-break marker resets
the per-page dict before its text is considered (lines 129-134); empty-text
runs are skipped (lines 136-139); otherwise the first matching rule splices
the run and the walk stops with the match flag `true`.  Returns the new
sibling list, the tracker state, and whether a splice happened. -/
def scanPass (mode : String) (sorted : List RubySetting) :
    TrackState → List Node → List Node × TrackState × Bool
  | st, [] => ([], st, false)
  | st, Node.annot x :: rest =>
    let res := scanPass mode sorted st rest
    (Node.annot x :: res.1, res.2.1, res.2.2)
  | st, Node.run r :: rest =>
    let st1 := if r.brk then { st with pageApplied := [] } else st
    if r.text.isEmpty then
      let res := scanPass mode sorted st1 rest
      (Node.run r :: res.1, res.2.1, res.2.2)
    else
      match findRuleMatch mode st1 r.text sorted with
      | some (s, idx) => spliceRun mode st1 r s idx rest
      | none =>
        let res := scanPass mode sorted st1 rest
        (Node.run r :: res.1, res.2.1, res.2.2)

/-- The per-paragraph restart loop: after every splice the index is reset to
0 (`i = -1` then `i += 1`, source lines 223-236) and the paragraph is walked
again; processing of the paragraph ends when a full walk finds no match.
`fuel` bounds the number of walks; `none` means the loop did not finish
within the given fuel. -/
def processPara (mode : String) (sorted : List RubySetting) :
    Nat → TrackState → List Node → Option (List Node × TrackState)
  | 0, _, _ => none
  | Nat.succ fuel, st, nodes =>
    match scanPass mode sorted st nodes with
    | (ns, st', true) => processPara mode sorted fuel st' ns
    | (ns, st', false) => some (ns, st')

/-- The `for paragraph in doc.paragraphs` loop (source line 97): paragraphs
are processed in document order and the tracker state is threaded through
them all. -/
def processDoc (mode : String) (sorted : List RubySetting) (fuel : Nat) :
    TrackState → List (List Node) → Option (List (List Node) × TrackState)
  | st, [] => some ([], st)
  | st, p :: ps =>
    match processPara mode sorted fuel st p with
    | none => none
    | some (p', st') =>
      match processDoc mode sorted fuel st' ps with
      | none => none
      | some (ps', st'') => some (p' :: ps', st'')

/-- `apply_ruby_to_document(doc_path, output_path, ruby_settings, mode)`
(source lines 73-239), restricted to its in-memory core: both dicts start
all-`False`, the settings are stably sorted longest word first, and every
paragraph is processed in order.  The loaded/saved document is the list of
paragraphs. -/
def apply_ruby_to_document (paras : List (List Node)) (ruby_settings : List RubySetting)
    (mode : String) (fuel : Nat) : Option (List (List Node)) :=
  let sorted := sortSettings ruby_settings
  (processDoc mode sorted fuel ⟨[], []⟩ paras).map Prod.fst

/-! ## Observation functions over documents -/

/-- Base text of a ruby annotation element: the text of the single run inside
its third child (`w:rubyBase`). -/
def annotBase : Xml → List Char
  | Xml.elem _ _ cs =>
    match cs.getD 2 (Xml.textNode []) with
    | Xml.elem _ _ [Xml.elem _ _ [Xml.elem _ _ [Xml.textNode s]]] => s
    | _ => []
  | _ => []

/-- Concatenated text of the run siblings of a paragraph, annotation elements
contributing nothing. -/
def runsText : List Node → List Char
  | [] => []
  | Node.run r :: ns => r.text ++ runsText ns
  | Node.annot _ :: ns => runsText ns

/-- Concatenated text of a paragraph where each annotation contributes its
base word: the "no character is lost" reading of a paragraph. -/
def fullText : List Node → List Char
  | [] => []
  | Node.run r :: ns => r.text ++ fullText ns
  | Node.annot x :: ns => annotBase x ++ fullText ns

/-- Base words of the annotation elements of a paragraph, in sibling order. -/
def annotWords : List Node → List (List Char)
  | [] => []
  | Node.run _ :: ns => annotWords ns
  | Node.annot x :: ns => annotBase x :: annotWords ns

/-- Number of annotation elements in a paragraph whose base word is `w`. -/
def countWordPara (w : List Char) : List Node → Nat
  | [] => 0
  | Node.run _ :: ns => countWordPara w ns
  | Node.annot x :: ns => (if annotBase x == w then 1 else 0) + countWordPara w ns

/-- Number of annotation elements with base word `w` in a whole document. -/
def countWordDoc (w : List Char) : List (List Node) → Nat
  | [] => 0
  | p :: ps => countWordPara w p + countWordDoc w ps

/-- Number of annotation elements in a paragraph. -/
def countAnnots (ns : List Node) : Nat := (annotWords ns).length

/-- Total length of the run text of a paragraph. -/
def totalLen : List Node → Nat
  | [] => 0
  | Node.run r :: ns => r.text.length + totalLen ns
  | Node.annot _ :: ns => totalLen ns

/-- Total run-text length of a document. -/
def docLen : List (List Node) → Nat
  | [] => 0
  | p :: ps => totalLen p + docLen ps

/-- Whether a paragraph child is a run. -/
def isRunB : Node → Bool
  | Node.run _ => true
  | Node.annot _ => false

/-- Interleaving of text segments with annotated words:
`interleave [s0, s1, ..., sk] [w1, ..., wk] = s0 ++ w1 ++ s1 ++ ... ++ wk ++ sk`. -/
def interleave : List (List Char) → List (List Char) → List Char
  | [], _ => []
  | s :: ss, [] => s ++ ss.flatten
  | s :: ss, w :: ws => s ++ w ++ interleave ss ws

/-- The rescan loop of a paragraph never finishes, whatever the fuel. -/
def paraNeverTerminates (mode : String) (sorted : List RubySetting)
    (st : TrackState) (ns : List Node) : Prop :=
  ∀ fuel, processPara mode sorted fuel st ns = none

/-- Whether a paragraph has a run with non-empty text. -/
def hasNonemptyRun : List Node → Bool
  | [] => false
  | Node.run r :: ns => !r.text.isEmpty || hasNonemptyRun ns
  | Node.annot _ :: ns => hasNonemptyRun ns

/-! ## Basic lemmas about the searching functions -/

theorem beginsWith_spec : ∀ (p s : List Char), beginsWith p s = true → s = p ++ s.drop p.length
  | [], s, _ => by simp
  | _ :: _, [], h => by simp [beginsWith] at h
  | p :: ps, c :: cs, h => by
    simp only [beginsWith, Bool.and_eq_true, beq_iff_eq] at h
    obtain ⟨rfl, h2⟩ := h
    have ih := beginsWith_spec ps cs h2
    simp only [List.length_cons, List.drop_succ_cons, List.cons_append]
    exact congrArg (List.cons p) ih

theorem findSub_spec : ∀ (text : List Char) (pat : List Char) (idx : Nat),
    findSub pat text = some idx →
    text = text.take idx ++ pat ++ text.drop (idx + pat.length)
  | [], pat, idx, h => by
    simp only [findSub] at h
    split at h
    · next hemp =>
      obtain rfl : 0 = idx := Option.some.inj h
      simp [List.isEmpty_iff.mp hemp]
    · exact absurd h (by simp)
  | c :: rest, pat, idx, h => by
    simp only [findSub] at h
    split at h
    · next hbeg =>
      obtain rfl : 0 = idx := Option.some.inj h
      simpa using beginsWith_spec pat (c :: rest) hbeg
    · next hbeg =>
      obtain ⟨j, hj, rfl⟩ := Option.map_eq_some'.mp h
      have ih := findSub_spec rest pat j hj
      have harith : j + 1 + pat.length = (j + pat.length) + 1 := by omega
      rw [harith, List.drop_succ_cons, List.take_succ_cons, List.cons_append,
        List.cons_append]
      exact congrArg (List.cons c) ih

theorem findRuleMatch_spec : ∀ (l : List RubySetting) (mode : String) (st : TrackState)
    (text : List Char) (s : RubySetting) (idx : Nat),
    findRuleMatch mode st text l = some (s, idx) →
    s ∈ l ∧ skipRule mode st s.word = false ∧ findSub s.word text = some idx
  | [], _, _, _, _, _, h => by simp [findRuleMatch] at h
  | a :: l, mode, st, text, s, idx, h => by
    simp only [findRuleMatch] at h
    split at h
    · next hskip =>
      have ih := findRuleMatch_spec l mode st text s idx h
      exact ⟨List.mem_cons_of_mem a ih.1, ih.2.1, ih.2.2⟩
    · next hskip =>
      split at h
      · next hfs =>
        obtain ⟨rfl, rfl⟩ : a = s ∧ _ = idx := by
          have := Option.some.inj h
          exact ⟨congrArg Prod.fst this, congrArg Prod.snd this⟩
        exact ⟨List.mem_cons_self a l, Bool.eq_false_iff.mpr hskip, hfs⟩
      · next =>
        have ih := findRuleMatch_spec l mode st text s idx h
        exact ⟨List.mem_cons_of_mem a ih.1, ih.2.1, ih.2.2⟩

theorem findRuleMatch_none : ∀ (l : List RubySetting) (mode : String) (st : TrackState)
    (text : List Char),
    findRuleMatch mode st text l = none →
    ∀ s ∈ l, skipRule mode st s.word = false → findSub s.word text = none
  | [], _, _, _, _, s, hs, _ => by simp at hs
  | a :: l, mode, st, text, h, s, hs, hsk => by
    simp only [findRuleMatch] at h
    rcases List.mem_cons.mp hs with rfl | hs'
    · split at h
      · next hskip => exact absurd hskip (by rw [hsk]; simp)
      · next =>
        split at h
        · exact absurd h (by simp)
        · next hfs => exact hfs
    · split at h
      · exact findRuleMatch_none l mode st text h s hs' hsk
      · split at h
        · exact absurd h (by simp)
        · exact findRuleMatch_none l mode st text h s hs' hsk

/-! ## Structure of a scanning pass -/

theorem globalApplied_reset (st : TrackState) (b : Bool) :
    (if b then { st with pageApplied := [] } else st).globalApplied = st.globalApplied := by
  cases b <;> rfl

theorem scanPass_nil (mode : String) (sorted : List RubySetting) (st : TrackState) :
    scanPass mode sorted st [] = ([], st, false) := rfl

theorem scanPass_annot (mode : String) (sorted : List RubySetting) (st : TrackState)
    (x : Xml) (tail : List Node) :
    scanPass mode sorted st (Node.annot x :: tail) =
      (Node.annot x :: (scanPass mode sorted st tail).1,
        (scanPass mode sorted st tail).2.1, (scanPass mode sorted st tail).2.2) := rfl

theorem scanPass_run_empty (mode : String) (sorted : List RubySetting) (st : TrackState)
    (r0 : Run) (tail : List Node) (hemp : r0.text.isEmpty = true) :
    scanPass mode sorted st (Node.run r0 :: tail) =
      (Node.run r0 ::
          (scanPass mode sorted (if r0.brk then { st with pageApplied := [] } else st) tail).1,
        (scanPass mode sorted (if r0.brk then { st with pageApplied := [] } else st) tail).2.1,
        (scanPass mode sorted (if r0.brk then { st with pageApplied := [] } else st) tail).2.2) := by
  simp [scanPass, hemp]

theorem scanPass_run_nomatch (mode : String) (sorted : List RubySetting) (st : TrackState)
    (r0 : Run) (tail : List Node) (hemp : r0.text.isEmpty = false)
    (hfm : findRuleMatch mode (if r0.brk then { st with pageApplied := [] } else st)
      r0.text sorted = none) :
    scanPass mode sorted st (Node.run r0 :: tail) =
      (Node.run r0 ::
          (scanPass mode sorted (if r0.brk then { st with pageApplied := [] } else st) tail).1,
        (scanPass mode sorted (if r0.brk then { st with pageApplied := [] } else st) tail).2.1,
        (scanPass mode sorted (if r0.brk then { st with pageApplied := [] } else st) tail).2.2) := by
  simp [scanPass, hemp, hfm]

theorem scanPass_run_match (mode : String) (sorted : List RubySetting) (st : TrackState)
    (r0 : Run) (tail : List Node) (s : RubySetting) (idx : Nat)
    (hemp : r0.text.isEmpty = false)
    (hfm : findRuleMatch mode (if r0.brk then { st with pageApplied := [] } else st)
      r0.text sorted = some (s, idx)) :
    scanPass mode sorted st (Node.run r0 :: tail) =
      spliceRun mode (if r0.brk then { st with pageApplied := [] } else st) r0 s idx tail := by
  simp [scanPass, hemp, hfm]

/-- When a pass splices, the sibling list decomposes as an untouched head, the
matched run truncated to the before-text, the new ruby element, an after-run
exactly when the after-text is non-empty, and the untouched tail; the matched
setting comes from the candidate list, was not skipped by the mode guards at a
state whose global dict is the incoming one, and its word occurs at the
reported index. -/
theorem scanPass_matched (mode : String) (sorted : List RubySetting) :
    ∀ (ns : List Node) (st : TrackState),
    (scanPass mode sorted st ns).2.2 = true →
    ∃ pre r rest s idx stMid,
      ns = pre ++ Node.run r :: rest ∧
      s ∈ sorted ∧
      stMid.globalApplied = st.globalApplied ∧
      skipRule mode stMid s.word = false ∧
      r.text.isEmpty = false ∧
      findSub s.word r.text = some idx ∧
      (scanPass mode sorted st ns).1 =
        pre ++ Node.run (truncRun r (r.text.take idx)) ::
          Node.annot (create_ruby_element s.word s.ruby) ::
          (if (r.text.drop (idx + s.word.length)).isEmpty then []
           else [Node.run (mkAfterRun r (r.text.drop (idx + s.word.length)))]) ++ rest ∧
      (scanPass mode sorted st ns).2.1 = markApplied mode s.word stMid
  | [], st, h => by simp [scanPass] at h
  | Node.annot x :: tail, st, h => by
    rw [scanPass_annot] at h ⊢
    obtain ⟨pre, r, rest, s, idx, stMid, h1, h2, h3, h4, h5, h6, h7, h8⟩ :=
      scanPass_matched mode sorted tail st h
    exact ⟨Node.annot x :: pre, r, rest, s, idx, stMid, by rw [h1]; rfl, h2, h3, h4, h5, h6,
      by rw [h7]; rfl, h8⟩
  | Node.run r0 :: tail, st, h => by
    by_cases hemp : r0.text.isEmpty = true
    · rw [scanPass_run_empty mode sorted st r0 tail hemp] at h ⊢
      obtain ⟨pre, r, rest, s, idx, stMid, h1, h2, h3, h4, h5, h6, h7, h8⟩ :=
        scanPass_matched mode sorted tail _ h
      rw [globalApplied_reset] at h3
      exact ⟨Node.run r0 :: pre, r, rest, s, idx, stMid, by rw [h1]; rfl, h2, h3, h4, h5, h6,
        by rw [h7]; rfl, h8⟩
    · rw [Bool.not_eq_true] at hemp
      rcases hfm : findRuleMatch mode (if r0.brk then { st with pageApplied := [] } else st)
          r0.text sorted with _ | ⟨s, idx⟩
      · rw [scanPass_run_nomatch mode sorted st r0 tail hemp hfm] at h ⊢
        obtain ⟨pre, r, rest, s, idx, stMid, h1, h2, h3, h4, h5, h6, h7, h8⟩ :=
          scanPass_matched mode sorted tail _ h
        rw [globalApplied_reset] at h3
        exact ⟨Node.run r0 :: pre, r, rest, s, idx, stMid, by rw [h1]; rfl, h2, h3, h4, h5, h6,
          by rw [h7]; rfl, h8⟩
      · rw [scanPass_run_match mode sorted st r0 tail s idx hemp hfm] at h ⊢
        obtain ⟨hmem, hskip, hfs⟩ := findRuleMatch_spec sorted mode _ r0.text s idx hfm
        exact ⟨[], r0, tail, s, idx, _, rfl, hmem, globalApplied_reset st r0.brk, hskip,
          hemp, hfs, by simp [spliceRun], by simp [spliceRun]⟩

/-- A pass that splices nothing leaves the sibling list unchanged. -/
theorem scanPass_false_nodes (mode : String) (sorted : List RubySetting) :
    ∀ (ns : List Node) (st : TrackState),
    (scanPass mode sorted st ns).2.2 = false →
    (scanPass mode sorted st ns).1 = ns
  | [], _, _ => rfl
  | Node.annot x :: tail, st, h => by
    rw [scanPass_annot] at h ⊢
    rw [scanPass_false_nodes mode sorted tail st h]
  | Node.run r0 :: tail, st, h => by
    by_cases hemp : r0.text.isEmpty = true
    · rw [scanPass_run_empty mode sorted st r0 tail hemp] at h ⊢
      rw [scanPass_false_nodes mode sorted tail _ h]
    · rw [Bool.not_eq_true] at hemp
      rcases hfm : findRuleMatch mode (if r0.brk then { st with pageApplied := [] } else st)
          r0.text sorted with _ | ⟨s, idx⟩
      · rw [scanPass_run_nomatch mode sorted st r0 tail hemp hfm] at h ⊢
        rw [scanPass_false_nodes mode sorted tail _ h]
      · rw [scanPass_run_match mode sorted st r0 tail s idx hemp hfm] at h
        simp [spliceRun] at h

/-- A pass that splices nothing does not touch the global (mode `once`)
dict: only page-break resets happen along it, and they touch the page dict
only. -/
theorem scanPass_false_global (mode : String) (sorted : List RubySetting) :
    ∀ (ns : List Node) (st : TrackState),
    (scanPass mode sorted st ns).2.2 = false →
    (scanPass mode sorted st ns).2.1.globalApplied = st.globalApplied
  | [], _, _ => rfl
  | Node.annot x :: tail, st, h => by
    rw [scanPass_annot] at h ⊢
    exact scanPass_false_global mode sorted tail st h
  | Node.run r0 :: tail, st, h => by
    by_cases hemp : r0.text.isEmpty = true
    · rw [scanPass_run_empty mode sorted st r0 tail hemp] at h ⊢
      rw [scanPass_false_global mode sorted tail _ h, globalApplied_reset]
    · rw [Bool.not_eq_true] at hemp
      rcases hfm : findRuleMatch mode (if r0.brk then { st with pageApplied := [] } else st)
          r0.text sorted with _ | ⟨s, idx⟩
      · rw [scanPass_run_nomatch mode sorted st r0 tail hemp hfm] at h ⊢
        rw [scanPass_false_global mode sorted tail _ h, globalApplied_reset]
      · rw [scanPass_run_match mode sorted st r0 tail s idx hemp hfm] at h
        simp [spliceRun] at h

/-! ## Text preservation -/

theorem annotBase_create (w rb : List Char) : annotBase (create_ruby_element w rb) = w := rfl

theorem fullText_append : ∀ (a b : List Node), fullText (a ++ b) = fullText a ++ fullText b
  | [], _ => rfl
  | Node.run r :: a, b => by simp [fullText, fullText_append a b]
  | Node.annot x :: a, b => by simp [fullText, fullText_append a b]

theorem runsText_append : ∀ (a b : List Node), runsText (a ++ b) = runsText a ++ runsText b
  | [], _ => rfl
  | Node.run r :: a, b => by simp [runsText, runsText_append a b]
  | Node.annot x :: a, b => by simp [runsText, runsText_append a b]

theorem processPara_succ (mode : String) (sorted : List RubySetting) (fuel : Nat)
    (st : TrackState) (nodes : List Node) :
    processPara mode sorted (fuel + 1) st nodes =
      if (scanPass mode sorted st nodes).2.2 then
        processPara mode sorted fuel (scanPass mode sorted st nodes).2.1
          (scanPass mode sorted st nodes).1
      else some ((scanPass mode sorted st nodes).1, (scanPass mode sorted st nodes).2.1) := by
  simp only [processPara]
  rcases hsp : scanPass mode sorted st nodes with ⟨ns1, st1, m⟩
  cases m <;> simp

/-- A splice moves the matched word from run text into the annotation's base
but loses no character: the paragraph text read with annotation bases
included is unchanged. -/
theorem scanPass_matched_fullText (mode : String) (sorted : List RubySetting)
    (ns : List Node) (st : TrackState) (h : (scanPass mode sorted st ns).2.2 = true) :
    fullText (scanPass mode sorted st ns).1 = fullText ns := by
  obtain ⟨pre, r, rest, s, idx, stMid, h1, h2, h3, h4, h5, h6, h7, h8⟩ :=
    scanPass_matched mode sorted ns st h
  have hdec := findSub_spec r.text s.word idx h6
  rw [h7, h1]
  by_cases haft : (r.text.drop (idx + s.word.length)).isEmpty = true
  · have hnil : r.text.drop (idx + s.word.length) = [] := List.isEmpty_iff.mp haft
    rw [if_pos haft]
    simp only [fullText_append, fullText, truncRun, annotBase_create, List.nil_append,
      List.append_nil, List.append_assoc]
    conv_rhs => rw [hdec]
    simp [hnil]
  · rw [if_neg haft]
    simp only [fullText_append, fullText, truncRun, mkAfterRun, annotBase_create,
      List.nil_append, List.append_nil, List.append_assoc]
    conv_rhs => rw [hdec]
    simp

/-- Whole-paragraph processing preserves the annotation-inclusive text. -/
theorem processPara_fullText (mode : String) (sorted : List RubySetting) :
    ∀ (fuel : Nat) (st : TrackState) (ns ns' : List Node) (st' : TrackState),
    processPara mode sorted fuel st ns = some (ns', st') → fullText ns' = fullText ns
  | 0, st, ns, ns', st', h => by simp [processPara] at h
  | fuel + 1, st, ns, ns', st', h => by
    rw [processPara_succ] at h
    by_cases hm : (scanPass mode sorted st ns).2.2 = true
    · rw [if_pos hm] at h
      rw [processPara_fullText mode sorted fuel _ _ _ _ h,
        scanPass_matched_fullText mode sorted ns st hm]
    · rw [if_neg hm] at h
      rw [Bool.not_eq_true] at hm
      have hfst : (scanPass mode sorted st ns).1 = ns' :=
        congrArg Prod.fst (Option.some.inj h)
      rw [← hfst, scanPass_false_nodes mode sorted ns st hm]

theorem interleave_cons_append (a s : List Char) (ss ws : List (List Char)) :
    interleave ((a ++ s) :: ss) ws = a ++ interleave (s :: ss) ws := by
  cases ws <;> simp [interleave]

/-- Every sibling list splits into text segments around its annotations: the
annotation-inclusive text is the interleaving of the segments with the
annotated base words, and the runs-only text is the plain concatenation of
the segments. -/
theorem nodes_decompose : ∀ (ns : List Node), ∃ segs : List (List Char),
    segs.length = (annotWords ns).length + 1 ∧
    interleave segs (annotWords ns) = fullText ns ∧
    segs.flatten = runsText ns
  | [] => ⟨[[]], rfl, rfl, rfl⟩
  | Node.run r :: ns => by
    obtain ⟨segs, hlen, hint, hjoin⟩ := nodes_decompose ns
    rcases segs with _ | ⟨s0, ss⟩
    · simp at hlen
    · refine ⟨(r.text ++ s0) :: ss, by simpa using hlen, ?_, ?_⟩
      · show interleave ((r.text ++ s0) :: ss) (annotWords (Node.run r :: ns)) = _
        rw [show annotWords (Node.run r :: ns) = annotWords ns from rfl,
          interleave_cons_append, hint]
        rfl
      · show ((r.text ++ s0) :: ss).flatten = runsText (Node.run r :: ns)
        simp only [List.flatten_cons, List.append_assoc, runsText]
        rw [← List.flatten_cons, hjoin]
  | Node.annot x :: ns => by
    obtain ⟨segs, hlen, hint, hjoin⟩ := nodes_decompose ns
    refine ⟨[] :: segs, by simp [annotWords, hlen], ?_, by simpa [runsText] using hjoin⟩
    show interleave ([] :: segs) (annotBase x :: annotWords ns) = fullText (Node.annot x :: ns)
    simp [interleave, hint, fullText]

theorem runsText_eq_fullText : ∀ (ns : List Node), ns.all isRunB = true →
    runsText ns = fullText ns
  | [], _ => rfl
  | Node.run r :: ns, h => by
    simp only [List.all_cons, Bool.and_eq_true] at h
    simp [runsText, fullText, runsText_eq_fullText ns h.2]
  | Node.annot x :: ns, h => by
    simp [List.all_cons, isRunB] at h

/-! ## Behaviour with an empty rule list -/

theorem scanPass_nil_rules (mode : String) : ∀ (ns : List Node) (st : TrackState),
    (scanPass mode [] st ns).1 = ns ∧ (scanPass mode [] st ns).2.2 = false
  | [], _ => ⟨rfl, rfl⟩
  | Node.annot x :: tail, st => by
    rw [scanPass_annot]
    exact ⟨congrArg (Node.annot x :: ·) (scanPass_nil_rules mode tail st).1,
      (scanPass_nil_rules mode tail st).2⟩
  | Node.run r0 :: tail, st => by
    by_cases hemp : r0.text.isEmpty = true
    · rw [scanPass_run_empty mode [] st r0 tail hemp]
      exact ⟨congrArg (Node.run r0 :: ·) (scanPass_nil_rules mode tail _).1,
        (scanPass_nil_rules mode tail _).2⟩
    · rw [Bool.not_eq_true] at hemp
      rw [scanPass_run_nomatch mode [] st r0 tail hemp rfl]
      exact ⟨congrArg (Node.run r0 :: ·) (scanPass_nil_rules mode tail _).1,
        (scanPass_nil_rules mode tail _).2⟩

theorem processPara_nil_rules (mode : String) (fuel : Nat) (st : TrackState) (ns : List Node)
    (h : 0 < fuel) :
    processPara mode [] fuel st ns = some (ns, (scanPass mode [] st ns).2.1) := by
  obtain ⟨f, rfl⟩ : ∃ f, fuel = f + 1 := ⟨fuel - 1, by omega⟩
  rw [processPara_succ, (scanPass_nil_rules mode ns st).2, (scanPass_nil_rules mode ns st).1]
  simp

/-! ## Sortedness of the settings -/

theorem mem_insertLen {a x : RubySetting} : ∀ {l : List RubySetting},
    x ∈ insertLen a l ↔ x = a ∨ x ∈ l
  | [] => by simp [insertLen]
  | b :: bs => by
    simp only [insertLen]
    split
    · simp [List.mem_cons]
    · rw [List.mem_cons, mem_insertLen (l := bs), List.mem_cons]
      tauto

theorem mem_sortSettings {x : RubySetting} : ∀ {l : List RubySetting},
    x ∈ sortSettings l ↔ x ∈ l
  | [] => Iff.rfl
  | a :: l => by
    rw [sortSettings, mem_insertLen, mem_sortSettings (l := l), List.mem_cons]

theorem pairwise_insertLen (a : RubySetting) : ∀ (l : List RubySetting),
    List.Pairwise (fun p q => q.word.length ≤ p.word.length) l →
    List.Pairwise (fun p q => q.word.length ≤ p.word.length) (insertLen a l)
  | [], _ => List.pairwise_singleton _ _
  | b :: bs, h => by
    rw [List.pairwise_cons] at h
    by_cases hle : b.word.length ≤ a.word.length
    · simp only [insertLen, if_pos hle]
      refine List.pairwise_cons.mpr ⟨?_, List.pairwise_cons.mpr h⟩
      intro y hy
      rcases List.mem_cons.mp hy with rfl | hy'
      · exact hle
      · exact le_trans (h.1 y hy') hle
    · simp only [insertLen, if_neg hle]
      refine List.pairwise_cons.mpr ⟨?_, pairwise_insertLen a bs h.2⟩
      intro y hy
      rcases mem_insertLen.mp hy with rfl | hy'
      · omega
      · exact h.1 y hy'

theorem sortSettings_pairwise : ∀ (l : List RubySetting),
    List.Pairwise (fun p q => q.word.length ≤ p.word.length) (sortSettings l)
  | [] => List.Pairwise.nil
  | a :: l => pairwise_insertLen a (sortSettings l) (sortSettings_pairwise l)

/-! ## Counting annotations in `once` mode -/

theorem countWordPara_append : ∀ (a b : List Node) (w : List Char),
    countWordPara w (a ++ b) = countWordPara w a + countWordPara w b
  | [], _, _ => by simp [countWordPara]
  | Node.run r :: a, b, w => by
    simp [countWordPara, countWordPara_append a b w]
  | Node.annot x :: a, b, w => by
    simp [countWordPara, countWordPara_append a b w, Nat.add_assoc]

theorem skipRule_once (st : TrackState) (w : List Char) :
    skipRule "once" st w = lookupApplied st.globalApplied w := by
  have h1 : (("once" : String) == "once") = true := rfl
  have h2 : (("once" : String) == "per_page") = false := rfl
  simp [skipRule, h1, h2]

theorem markApplied_once (w : List Char) (st : TrackState) :
    markApplied "once" w st = { st with globalApplied := w :: st.globalApplied } := by
  have h1 : (("once" : String) == "once") = true := rfl
  have h2 : (("once" : String) == "per_page") = false := rfl
  simp [markApplied, h1, h2]

/-- One pass in `once` mode can only spend the budget of a word: the count of
its annotations plus its remaining budget (1 while the word is unapplied in
the global dict, 0 afterwards) never grows. -/
theorem scanPass_once_count (sorted : List RubySetting) (w : List Char)
    (ns : List Node) (st : TrackState) :
    countWordPara w (scanPass "once" sorted st ns).1 +
        (if lookupApplied (scanPass "once" sorted st ns).2.1.globalApplied w then 0 else 1) ≤
      countWordPara w ns + (if lookupApplied st.globalApplied w then 0 else 1) := by
  by_cases hm : (scanPass "once" sorted st ns).2.2 = true
  · obtain ⟨pre, r, rest, s, idx, stMid, h1, h2, h3, h4, h5, h6, h7, h8⟩ :=
      scanPass_matched "once" sorted ns st hm
    rw [skipRule_once, h3] at h4
    rw [h7, h8, markApplied_once, h1]
    have hifcnt : countWordPara w
        (if (r.text.drop (idx + s.word.length)).isEmpty = true then []
         else [Node.run (mkAfterRun r (r.text.drop (idx + s.word.length)))]) = 0 := by
      split <;> rfl
    have hL : countWordPara w
        ((pre ++ Node.run (truncRun r (r.text.take idx)) ::
          Node.annot (create_ruby_element s.word s.ruby) ::
          (if (r.text.drop (idx + s.word.length)).isEmpty = true then []
           else [Node.run (mkAfterRun r (r.text.drop (idx + s.word.length)))])) ++ rest) =
        countWordPara w pre + (if (s.word == w) = true then 1 else 0) + countWordPara w rest := by
      rw [countWordPara_append, countWordPara_append]
      simp only [countWordPara, annotBase_create, hifcnt, Nat.add_zero]
    have hR : countWordPara w (pre ++ Node.run r :: rest) =
        countWordPara w pre + countWordPara w rest := by
      rw [countWordPara_append]
      simp only [countWordPara]
    rw [hL, hR]
    simp only [lookupApplied, h3]
    have hone : (if (true : Bool) = true then (1 : Nat) else 0) = 1 := rfl
    have hzero : (if (false : Bool) = true then (1 : Nat) else 0) = 0 := rfl
    have hbudget : (if (false : Bool) = true then (0 : Nat) else 1) = 1 := rfl
    by_cases hw : (s.word == w) = true
    · have hww : s.word = w := beq_iff_eq.mp hw
      rw [hww] at h4
      rw [hw, hone, h4, hbudget]
      simp only [Bool.true_or, if_true]
      omega
    · rw [Bool.not_eq_true] at hw
      rw [hw, hzero]
      simp only [Bool.false_or]
      omega
  · rw [Bool.not_eq_true] at hm
    rw [scanPass_false_nodes "once" sorted ns st hm, scanPass_false_global "once" sorted ns st hm]

/-- Paragraph processing in `once` mode never grows a word's annotation count
plus remaining budget. -/
theorem processPara_once_count (sorted : List RubySetting) (w : List Char) :
    ∀ (fuel : Nat) (st : TrackState) (ns ns' : List Node) (st' : TrackState),
    processPara "once" sorted fuel st ns = some (ns', st') →
    countWordPara w ns' + (if lookupApplied st'.globalApplied w then 0 else 1) ≤
      countWordPara w ns + (if lookupApplied st.globalApplied w then 0 else 1)
  | 0, st, ns, ns', st', h => by simp [processPara] at h
  | fuel + 1, st, ns, ns', st', h => by
    rw [processPara_succ] at h
    by_cases hm : (scanPass "once" sorted st ns).2.2 = true
    · rw [if_pos hm] at h
      exact le_trans (processPara_once_count sorted w fuel _ _ _ _ h)
        (scanPass_once_count sorted w ns st)
    · rw [if_neg hm] at h
      rw [Bool.not_eq_true] at hm
      have hfst : (scanPass "once" sorted st ns).1 = ns' :=
        congrArg Prod.fst (Option.some.inj h)
      have hsnd : (scanPass "once" sorted st ns).2.1 = st' :=
        congrArg Prod.snd (Option.some.inj h)
      rw [← hfst, ← hsnd, scanPass_false_nodes "once" sorted ns st hm,
        scanPass_false_global "once" sorted ns st hm]

/-- Document processing in `once` mode never grows a word's annotation count
plus remaining budget. -/
theorem processDoc_once_count (sorted : List RubySetting) (w : List Char) (fuel : Nat) :
    ∀ (paras : List (List Node)) (st : TrackState) (res : List (List Node)) (st'' : TrackState),
    processDoc "once" sorted fuel st paras = some (res, st'') →
    countWordDoc w res + (if lookupApplied st''.globalApplied w then 0 else 1) ≤
      countWordDoc w paras + (if lookupApplied st.globalApplied w then 0 else 1)
  | [], st, res, st'', h => by
    have h' : res = [] ∧ st = st'' := by
      have := Option.some.inj h
      exact ⟨(congrArg Prod.fst this).symm, congrArg Prod.snd this⟩
    rw [h'.1, ← h'.2]
  | p :: ps, st, res, st'', h => by
    rcases hp : processPara "once" sorted fuel st p with _ | ⟨p', st'⟩
    · rw [processDoc, hp] at h
      exact Option.noConfusion h
    · rw [processDoc, hp] at h
      have h2 : (match processDoc "once" sorted fuel st' ps with
          | none => none
          | some (ps', st2) => some (p' :: ps', st2)) = some (res, st'') := h
      rcases hd : processDoc "once" sorted fuel st' ps with _ | ⟨ps', st2⟩
      · rw [hd] at h2
        exact Option.noConfusion h2
      · rw [hd] at h2
        have h' : p' :: ps' = res ∧ st2 = st'' := by
          have h3 : some (p' :: ps', st2) = some (res, st'') := h2
          have := Option.some.inj h3
          exact ⟨congrArg Prod.fst this, congrArg Prod.snd this⟩
        obtain ⟨rfl, rfl⟩ := h'
        have hpara := processPara_once_count sorted w fuel st p p' st' hp
        have hdoc := processDoc_once_count sorted w fuel ps st' ps' st2 hd
        show countWordPara w p' + countWordDoc w ps' + _ ≤ countWordPara w p + countWordDoc w ps + _
        omega

/-! ## Termination of the rescan loop -/

theorem totalLen_append : ∀ (a b : List Node), totalLen (a ++ b) = totalLen a + totalLen b
  | [], b => by simp [totalLen]
  | Node.run r :: a, b => by simp [totalLen, totalLen_append a b, Nat.add_assoc]
  | Node.annot x :: a, b => by simp [totalLen, totalLen_append a b]

/-- With every candidate word non-empty, a splice strictly shrinks the total
run text of the paragraph: the matched word's characters move out of run text
into the annotation. -/
theorem scanPass_matched_totalLen (mode : String) (sorted : List RubySetting)
    (hw : ∀ s ∈ sorted, s.word ≠ []) (ns : List Node) (st : TrackState)
    (h : (scanPass mode sorted st ns).2.2 = true) :
    totalLen (scanPass mode sorted st ns).1 < totalLen ns := by
  obtain ⟨pre, r, rest, s, idx, stMid, h1, h2, h3, h4, h5, h6, h7, h8⟩ :=
    scanPass_matched mode sorted ns st h
  have hdec := findSub_spec r.text s.word idx h6
  have hwpos : 0 < s.word.length := List.length_pos.mpr (hw s h2)
  have hlen : r.text.length =
      (r.text.take idx).length + s.word.length + (r.text.drop (idx + s.word.length)).length := by
    conv_lhs => rw [hdec]
    rw [List.length_append, List.length_append]
  rw [h7, h1, totalLen_append, totalLen_append]
  have hRlen : totalLen (pre ++ Node.run r :: rest) =
      totalLen pre + r.text.length + totalLen rest := by
    rw [totalLen_append]
    simp only [totalLen]
    omega
  by_cases haft : (r.text.drop (idx + s.word.length)).isEmpty = true
  · rw [if_pos haft]
    have hdl : (r.text.drop (idx + s.word.length)).length = 0 := by
      simp [List.isEmpty_iff.mp haft]
    simp only [totalLen, truncRun]
    omega
  · rw [if_neg haft]
    simp only [totalLen, mkAfterRun, truncRun]
    omega

theorem processPara_terminates (mode : String) (sorted : List RubySetting)
    (hw : ∀ s ∈ sorted, s.word ≠ []) :
    ∀ (fuel : Nat) (st : TrackState) (ns : List Node), totalLen ns < fuel →
    (processPara mode sorted fuel st ns).isSome = true
  | 0, _, _, h => absurd h (Nat.not_lt_zero _)
  | fuel + 1, st, ns, h => by
    rw [processPara_succ]
    by_cases hm : (scanPass mode sorted st ns).2.2 = true
    · rw [if_pos hm]
      have hlt := scanPass_matched_totalLen mode sorted hw ns st hm
      exact processPara_terminates mode sorted hw fuel _ _ (by omega)
    · rw [if_neg hm]
      rfl

theorem processDoc_terminates (mode : String) (sorted : List RubySetting) (fuel : Nat)
    (hw : ∀ s ∈ sorted, s.word ≠ []) :
    ∀ (paras : List (List Node)) (st : TrackState), docLen paras < fuel →
    (processDoc mode sorted fuel st paras).isSome = true
  | [], _, _ => rfl
  | p :: ps, st, h => by
    have hdl : totalLen p < fuel ∧ docLen ps < fuel := by
      simp only [docLen] at h
      omega
    have hp := processPara_terminates mode sorted hw fuel st p hdl.1
    rcases hpp : processPara mode sorted fuel st p with _ | ⟨p', st'⟩
    · rw [hpp] at hp
      exact Bool.noConfusion hp
    · have hd := processDoc_terminates mode sorted fuel hw ps st' hdl.2
      rcases hdd : processDoc mode sorted fuel st' ps with _ | ⟨ps', st''⟩
      · rw [hdd] at hd
        exact Bool.noConfusion hd
      · have hkey : processDoc mode sorted fuel st (p :: ps) = some (p' :: ps', st'') := by
          simp only [processDoc, hpp, hdd]
        rw [hkey]
        rfl

/-! ## Non-termination with an empty target word -/

theorem findSub_nil_pat (t : List Char) (h : t.isEmpty = false) : findSub [] t = some 0 := by
  rcases t with _ | ⟨c, cs⟩
  · simp at h
  · simp [findSub, beginsWith]

/-- In `all` mode with a rule whose word is empty, every pass over a
paragraph that still has a run with non-empty text splices again, and the
spliced paragraph again has a run with non-empty text (the empty match at
index 0 re-creates the whole text as the after-run). -/
theorem scanPass_empty_word (rb : List Char) : ∀ (ns : List Node) (st : TrackState),
    hasNonemptyRun ns = true →
    (scanPass "all" [⟨[], rb⟩] st ns).2.2 = true ∧
    hasNonemptyRun (scanPass "all" [⟨[], rb⟩] st ns).1 = true
  | [], st, h => by simp [hasNonemptyRun] at h
  | Node.annot x :: tail, st, h => by
    rw [scanPass_annot]
    have ih := scanPass_empty_word rb tail st (by simpa [hasNonemptyRun] using h)
    exact ⟨ih.1, by simpa [hasNonemptyRun] using ih.2⟩
  | Node.run r0 :: tail, st, h => by
    by_cases hemp : r0.text.isEmpty = true
    · rw [scanPass_run_empty "all" _ st r0 tail hemp]
      have ih := scanPass_empty_word rb tail
        (if r0.brk then { st with pageApplied := [] } else st) (by
          simp only [hasNonemptyRun, hemp, Bool.not_true, Bool.false_or] at h
          exact h)
      refine ⟨ih.1, ?_⟩
      simp only [hasNonemptyRun, Bool.or_eq_true]
      exact Or.inr ih.2
    · rw [Bool.not_eq_true] at hemp
      have hskip : skipRule "all" (if r0.brk then { st with pageApplied := [] } else st) [] = false := rfl
      have hfm : findRuleMatch "all" (if r0.brk then { st with pageApplied := [] } else st)
          r0.text [⟨[], rb⟩] = some (⟨[], rb⟩, 0) := by
        simp [findRuleMatch, hskip, findSub_nil_pat r0.text hemp]
      rw [scanPass_run_match "all" [⟨[], rb⟩] st r0 tail ⟨[], rb⟩ 0 hemp hfm]
      refine ⟨rfl, ?_⟩
      simp [spliceRun, hasNonemptyRun, truncRun, mkAfterRun, hemp]

/-- With an empty-word rule, a paragraph with non-empty run text exhausts any
fuel: the rescan loop never reaches the no-match pass. -/
theorem processPara_empty_word (rb : List Char) :
    ∀ (fuel : Nat) (st : TrackState) (ns : List Node), hasNonemptyRun ns = true →
    processPara "all" [⟨[], rb⟩] fuel st ns = none
  | 0, _, _, _ => rfl
  | fuel + 1, st, ns, h => by
    rw [processPara_succ, if_pos (scanPass_empty_word rb ns st h).1]
    exact processPara_empty_word rb fuel _ _ (scanPass_empty_word rb ns st h).2

/-! ## Concrete documents used by the claims -/

/-- The rule 鍵 → かぎ from the spec's mode-semantics examples. -/
def keySetting : RubySetting := ⟨"鍵".data, "かぎ".data⟩

/-- A plain run: no formatting, no page-break marker, no preserve-space. -/
def plainRun (t : String) : Node := Node.run ⟨none, false, false, t.data⟩

/-- A run whose XML carries a page-break marker and no text. -/
def pageBreakRun : Node := Node.run ⟨none, true, false, []⟩

/-- The annotation element produced for 鍵 / かぎ. -/
def keyAnnot : Node := Node.annot (create_ruby_element "鍵".data "かぎ".data)

/-! ## Claim theorems -/

/-- C1, counterexample: in `per_page` mode with the single rule 鍵→かぎ, a
document whose one paragraph holds the word once before a page-break marker
and twice after it receives THREE annotations: the page after the marker gets
two annotations of the same word.  After the second splice the rescan starts
again from the paragraph head, passes the page-break run once more, and that
observation resets the page dict, making the word eligible again on the same
page.  This refutes "each word receives at most one annotation per page
scope". -/
theorem claim1_per_page_cex :
    apply_ruby_to_document [[plainRun "鍵A", pageBreakRun, plainRun "鍵B鍵"]] [keySetting]
        "per_page" 10 =
      some [[plainRun "", keyAnnot, plainRun "A", pageBreakRun,
        plainRun "", keyAnnot, plainRun "B", keyAnnot]] ∧
    countAnnots [plainRun "", keyAnnot, plainRun "B", keyAnnot] = 2 := ⟨rfl, rfl⟩

/-- C1, amended: in `per_page` mode, `mark_applied` flips the word ineligible
in the page-scoped dict until the scan next observes a page-boundary marker
(which, because every splice restarts the walk from the paragraph head, can
happen several times for one physical marker, so a word after a marker can be
annotated more than once per page).  In the spec's concrete scenario — the
word twice before a page-break marker and once after — exactly two
annotations are produced: one at the first occurrence before the marker and
one at the first occurrence after it. -/
theorem claim1_per_page_amended :
    apply_ruby_to_document [[plainRun "鍵A鍵B", pageBreakRun, plainRun "鍵C"]] [keySetting]
        "per_page" 10 =
      some [[plainRun "", keyAnnot, plainRun "A鍵B", pageBreakRun,
        plainRun "", keyAnnot, plainRun "C"]] ∧
    countWordDoc "鍵".data [[plainRun "", keyAnnot, plainRun "A鍵B", pageBreakRun,
        plainRun "", keyAnnot, plainRun "C"]] = 2 := ⟨rfl, rfl⟩

/-- C2, counterexample: `apply_ruby_to_document` performs no configuration
validation at all.  With the unrecognized mode string "bogus" it does not
fail: it annotates the document (first conjunct — the document IS mutated,
no configuration error is surfaced before mutation); with an empty rule list
it silently returns the document unchanged instead of raising (second
conjunct). -/
theorem claim2_no_validation_cex :
    apply_ruby_to_document [[plainRun "鍵A"]] [keySetting] "bogus" 5 =
      some [[plainRun "", keyAnnot, plainRun "A"]] ∧
    apply_ruby_to_document [[plainRun "鍵A"]] [] "once" 5 = some [[plainRun "鍵A"]] :=
  ⟨rfl, rfl⟩

/-- C2, amended: the engine performs no configuration validation: an empty
rule list is accepted and every document is returned unchanged (no error is
raised and nothing is annotated); rules with empty fields and unrecognized
modes are likewise accepted (an unrecognized mode behaves as `all`, see the
C9 theorem). -/
theorem claim2_amended (paras : List (List Node)) (mode : String) (fuel : Nat)
    (h : 0 < fuel) :
    apply_ruby_to_document paras [] mode fuel = some paras := by
  unfold apply_ruby_to_document
  have hdoc : ∀ (ps : List (List Node)) (st : TrackState),
      ∃ st', processDoc mode [] fuel st ps = some (ps, st') := by
    intro ps
    induction ps with
    | nil => exact fun st => ⟨st, rfl⟩
    | cons p ps ih =>
      intro st
      obtain ⟨st', hst⟩ := ih (scanPass mode [] st p).2.1
      simp only [processDoc, processPara_nil_rules mode fuel st p h, hst]
      exact ⟨st', rfl⟩
  obtain ⟨st', hst⟩ := hdoc paras ⟨[], []⟩
  simp only [sortSettings] at hst ⊢
  rw [hst]
  rfl

/-- Witness for the amended C2 at a concrete document. -/
theorem claim2_amended_witness :
    apply_ruby_to_document [[plainRun "鍵A"]] [] "per_page" 1 = some [[plainRun "鍵A"]] :=
  claim2_amended [[plainRun "鍵A"]] "per_page" 1 (by decide)

/-- C3: after processing, the concatenation of the text of a paragraph's runs
in order (annotation nodes contributing zero characters) equals the original
paragraph text with each applied occurrence's word removed exactly once, in
original relative order.  Formally: the original text is the interleaving of
a segment list with the applied words — the base words of the produced
annotation nodes, in sibling order — and the processed runs-only text is the
concatenation of exactly those segments. -/
theorem claim3_text_preservation (mode : String) (sorted : List RubySetting) (fuel : Nat)
    (st st' : TrackState) (para ns : List Node)
    (h : processPara mode sorted fuel st para = some (ns, st'))
    (hruns : para.all isRunB = true) :
    ∃ segs : List (List Char),
      segs.length = (annotWords ns).length + 1 ∧
      runsText para = interleave segs (annotWords ns) ∧
      runsText ns = segs.flatten := by
  obtain ⟨segs, hlen, hint, hjoin⟩ := nodes_decompose ns
  refine ⟨segs, hlen, ?_, hjoin.symm⟩
  rw [runsText_eq_fullText para hruns,
    ← processPara_fullText mode sorted fuel st para ns st' h]
  exact hint.symm

/-- Witness for C3 at a concrete paragraph. -/
theorem claim3_text_preservation_witness :
    ∃ segs : List (List Char),
      segs.length = (annotWords [plainRun "X", keyAnnot, plainRun "Y"]).length + 1 ∧
      runsText [plainRun "X鍵Y"] =
        interleave segs (annotWords [plainRun "X", keyAnnot, plainRun "Y"]) ∧
      runsText [plainRun "X", keyAnnot, plainRun "Y"] = segs.flatten :=
  claim3_text_preservation "all" [keySetting] 5 ⟨[], []⟩ ⟨[], []⟩ [plainRun "X鍵Y"]
    [plainRun "X", keyAnnot, plainRun "Y"] (by rfl) (by rfl)

/-- C4: the scanner tries candidates longest word first — `sortSettings`
always yields a list whose word lengths are non-increasing, and
`findRuleMatch` takes the first candidate whose word occurs — so with rules
命→いのち and 運命→さだめ (registered in that order) and the input text 運命,
exactly one annotation is emitted, for 運命/さだめ. -/
theorem claim4_longest_match :
    (∀ rules : List RubySetting,
      List.Pairwise (fun p q => q.word.length ≤ p.word.length) (sortSettings rules)) ∧
    apply_ruby_to_document [[plainRun "運命"]]
        [⟨"命".data, "いのち".data⟩, ⟨"運命".data, "さだめ".data⟩] "all" 5 =
      some [[plainRun "", Node.annot (create_ruby_element "運命".data "さだめ".data)]] :=
  ⟨sortSettings_pairwise, rfl⟩

/-- C5: in `once` mode a word's eligibility, once spent, never comes back for
the remainder of the document — across paragraph and page boundaries — so any
document that starts without annotations ends with at most one annotation per
word (first conjunct, for every document, rule list and word); and the spec's
concrete document carrying 鍵 three times (across three paragraphs, with a
page-break marker before the second occurrence) receives exactly one
annotation, at the first occurrence in document order (second conjunct). -/
theorem claim5_once_mode :
    (∀ (paras : List (List Node)) (rules : List RubySetting) (fuel : Nat) (w : List Char)
        (res : List (List Node)),
      apply_ruby_to_document paras rules "once" fuel = some res →
      countWordDoc w paras = 0 → countWordDoc w res ≤ 1) ∧
    apply_ruby_to_document [[plainRun "A鍵B"], [pageBreakRun, plainRun "鍵"], [plainRun "C鍵D"]]
        [keySetting] "once" 10 =
      some [[plainRun "A", keyAnnot, plainRun "B"], [pageBreakRun, plainRun "鍵"],
        [plainRun "C鍵D"]] := by
  constructor
  · intro paras rules fuel w res happ hzero
    simp only [apply_ruby_to_document] at happ
    rcases hd : processDoc "once" (sortSettings rules) fuel ⟨[], []⟩ paras with _ | ⟨res0, st''⟩
    · rw [hd] at happ
      exact Option.noConfusion happ
    · rw [hd] at happ
      have hres : res0 = res := by simpa using happ
      subst hres
      have hcnt := processDoc_once_count (sortSettings rules) w fuel paras ⟨[], []⟩ res0 st'' hd
      rw [hzero] at hcnt
      have hinit : (if lookupApplied (TrackState.mk [] []).globalApplied w then (0 : Nat) else 1) = 1 := rfl
      rw [hinit] at hcnt
      exact le_trans (Nat.le_add_right _ _) hcnt
  · rfl

/-- Witness for C5: the general bound applied to the concrete three-occurrence
document. -/
theorem claim5_once_mode_witness :
    countWordDoc "鍵".data [[plainRun "A", keyAnnot, plainRun "B"], [pageBreakRun, plainRun "鍵"],
      [plainRun "C鍵D"]] ≤ 1 :=
  claim5_once_mode.1 [[plainRun "A鍵B"], [pageBreakRun, plainRun "鍵"], [plainRun "C鍵D"]]
    [keySetting] 10 "鍵".data
    [[plainRun "A", keyAnnot, plainRun "B"], [pageBreakRun, plainRun "鍵"], [plainRun "C鍵D"]]
    (by rfl) (by rfl)

/-- C6, counterexample: the rescan loop does NOT terminate for every input.
With a rule whose target word is empty — which the engine accepts, since it
validates nothing (see C2) — the empty word is found at index 0 of any
non-empty run text, the splice re-creates the whole text as the after-run,
and the restarted scan matches it again: `processPara` returns `none` for
EVERY fuel bound on the one-run paragraph "A". -/
theorem claim6_rescan_cex :
    paraNeverTerminates "all" [⟨[], "x".data⟩] ⟨[], []⟩ [plainRun "A"] :=
  fun fuel => processPara_empty_word "x".data fuel ⟨[], []⟩ [plainRun "A"] rfl

/-- C6, amended: for every input whose rule words are all non-empty (as the
spec's TargetRule data model requires), the scan/splice/restart loop reaches
Done: each splice moves the matched word's characters out of scannable run
text into an annotation node that is never re-read, so the total run text
strictly shrinks, and fuel equal to the document's total run-text length
plus one suffices for the whole document. -/
theorem claim6_termination_amended (rules : List RubySetting)
    (hw : ∀ s ∈ rules, s.word ≠ []) (mode : String) (paras : List (List Node)) :
    (apply_ruby_to_document paras rules mode (docLen paras + 1)).isSome = true := by
  have hw' : ∀ s ∈ sortSettings rules, s.word ≠ [] :=
    fun s hs => hw s (mem_sortSettings.mp hs)
  simp only [apply_ruby_to_document]
  have hd := processDoc_terminates mode (sortSettings rules) (docLen paras + 1) hw' paras
    ⟨[], []⟩ (by omega)
  rcases hdd : processDoc mode (sortSettings rules) (docLen paras + 1) ⟨[], []⟩ paras
      with _ | ⟨res, stf⟩
  · rw [hdd] at hd
    exact Bool.noConfusion hd
  · rfl

/-- Witness for the amended C6 at a concrete document and rule list. -/
theorem claim6_termination_amended_witness :
    (apply_ruby_to_document [[plainRun "A鍵B鍵"]] [keySetting] "all"
      (docLen [[plainRun "A鍵B鍵"]] + 1)).isSome = true :=
  claim6_termination_amended [keySetting] (by decide) "all" [[plainRun "A鍵B鍵"]]

/-- C8: for every word and reading, `create_ruby_element` returns a container
node with exactly three children in this order: the gloss properties block
(`w:rubyPr`), the reading part (`w:rt`) holding exactly one run whose single
text payload is the reading, and the base part (`w:rubyBase`) holding exactly
one run whose single text payload is the original word. -/
theorem claim8_annotation_shape (t ruby_text : List Char) :
    ∃ (prAttrs : List (String × String)) (prChildren : List Xml),
      create_ruby_element t ruby_text =
        Xml.elem "w:ruby" []
          [Xml.elem "w:rubyPr" prAttrs prChildren,
           Xml.elem "w:rt" [] [Xml.elem "w:r" [] [Xml.elem "w:t" [] [Xml.textNode ruby_text]]],
           Xml.elem "w:rubyBase" [] [Xml.elem "w:r" [] [Xml.elem "w:t" [] [Xml.textNode t]]]] :=
  ⟨_, _, rfl⟩

/-- C7, counterexample: the after-run preserve-space mark is NOT set for every
whitespace edge — the code compares with the space character only
(`text_after[0] == ' ' or text_after[-1] == ' '`).  Splitting the run
"鍵→\tB" leaves the after-text "\tB", which starts with the whitespace
character '\t', yet the created after-run (third run of the result, written
out literally) carries `spacePreserve := false`. -/
theorem claim7_whitespace_cex :
    apply_ruby_to_document [[plainRun "鍵\tB"]] [keySetting] "all" 5 =
      some [[plainRun "", keyAnnot, Node.run ⟨none, false, false, "\tB".data⟩]] ∧
    Char.isWhitespace '\t' = true := ⟨rfl, rfl⟩

/-- C7, amended: for every split where the text after the match is non-empty,
the splitter creates a new run immediately after the annotation node carrying
a copy of the original run's formatting and the after-text and no page-break
marker, and marks that run to preserve literal whitespace if and only if the
after-text starts or ends with the space character U+0020 (not general
whitespace); when the after-text is empty, no after run is created. -/
theorem claim7_after_run_amended (mode : String) (sorted : List RubySetting)
    (ns : List Node) (st : TrackState) (h : (scanPass mode sorted st ns).2.2 = true) :
    ∃ (pre : List Node) (r : Run) (rest : List Node) (s : RubySetting) (idx : Nat),
      ns = pre ++ Node.run r :: rest ∧
      findSub s.word r.text = some idx ∧
      (r.text.drop (idx + s.word.length) = [] →
        (scanPass mode sorted st ns).1 =
          pre ++ Node.run (truncRun r (r.text.take idx)) ::
            Node.annot (create_ruby_element s.word s.ruby) :: rest) ∧
      (r.text.drop (idx + s.word.length) ≠ [] →
        ∃ ra : Run,
          (scanPass mode sorted st ns).1 =
            pre ++ Node.run (truncRun r (r.text.take idx)) ::
              Node.annot (create_ruby_element s.word s.ruby) :: Node.run ra :: rest ∧
          ra.rPr = r.rPr ∧
          ra.text = r.text.drop (idx + s.word.length) ∧
          ra.brk = false ∧
          (ra.spacePreserve = true ↔
            (r.text.drop (idx + s.word.length)).head? = some ' ' ∨
            (r.text.drop (idx + s.word.length)).getLast? = some ' ')) := by
  obtain ⟨pre, r, rest, s, idx, stMid, h1, h2, h3, h4, h5, h6, h7, h8⟩ :=
    scanPass_matched mode sorted ns st h
  refine ⟨pre, r, rest, s, idx, h1, h6, ?_, ?_⟩
  · intro haft
    rw [h7, haft]
    simp
  · intro haft
    have hne : (r.text.drop (idx + s.word.length)).isEmpty = false := by
      rw [Bool.eq_false_iff]
      intro hc
      exact haft (List.isEmpty_iff.mp hc)
    refine ⟨mkAfterRun r (r.text.drop (idx + s.word.length)), ?_, rfl, rfl, rfl, ?_⟩
    · rw [h7, hne]
      simp
    · rcases hsplit : r.text.drop (idx + s.word.length) with _ | ⟨c, cs⟩
      · exact absurd hsplit haft
      · simp only [mkAfterRun, hsplit, List.isEmpty_cons, Bool.not_false, Bool.true_and,
          List.head?_cons]
        constructor
        · intro hsp
          rcases Bool.or_eq_true _ _ |>.mp hsp with hc | hc
          · exact Or.inl (by rw [beq_iff_eq.mp hc])
          · rcases hlast : (c :: cs).getLast? with _ | d
            · rw [hlast] at hc
              exact Bool.noConfusion hc
            · rw [hlast] at hc
              exact Or.inr (by rw [beq_iff_eq.mp hc])
        · intro hsp
          rcases hsp with hc | hc
          · rw [Option.some.inj hc]
            simp
          · rw [hc]
            simp

/-- C10: when a run is split, the truncated run is rebuilt from the
before-text alone — its page-break marker (and any other non-text child) is
removed — and the freshly created after-run carries no marker either, so a
marker in the matched run survives into neither the before run nor the after
run. -/
theorem claim10_marker_removed (mode : String) (sorted : List RubySetting)
    (ns : List Node) (st : TrackState) (h : (scanPass mode sorted st ns).2.2 = true) :
    ∃ (pre : List Node) (r : Run) (rest : List Node) (s : RubySetting) (idx : Nat) (rb : Run),
      ns = pre ++ Node.run r :: rest ∧
      findSub s.word r.text = some idx ∧
      (scanPass mode sorted st ns).1 =
        (pre ++ Node.run rb ::
          Node.annot (create_ruby_element s.word s.ruby) ::
          (if (r.text.drop (idx + s.word.length)).isEmpty = true then []
           else [Node.run (mkAfterRun r (r.text.drop (idx + s.word.length)))])) ++ rest ∧
      rb.text = r.text.take idx ∧
      rb.rPr = r.rPr ∧
      rb.brk = false ∧
      (mkAfterRun r (r.text.drop (idx + s.word.length))).brk = false := by
  obtain ⟨pre, r, rest, s, idx, stMid, h1, h2, h3, h4, h5, h6, h7, h8⟩ :=
    scanPass_matched mode sorted ns st h
  exact ⟨pre, r, rest, s, idx, truncRun r (r.text.take idx), h1, h6, h7, rfl, rfl, rfl, rfl⟩

/-- Witness for the amended C7: a concrete pass over the run "A鍵 B", whose
after-text " B" starts with a space. -/
theorem claim7_after_run_amended_witness :
    ∃ (pre : List Node) (r : Run) (rest : List Node) (s : RubySetting) (idx : Nat),
      [plainRun "A鍵 B"] = pre ++ Node.run r :: rest ∧
      findSub s.word r.text = some idx ∧
      (r.text.drop (idx + s.word.length) = [] →
        (scanPass "all" [keySetting] ⟨[], []⟩ [plainRun "A鍵 B"]).1 =
          pre ++ Node.run (truncRun r (r.text.take idx)) ::
            Node.annot (create_ruby_element s.word s.ruby) :: rest) ∧
      (r.text.drop (idx + s.word.length) ≠ [] →
        ∃ ra : Run,
          (scanPass "all" [keySetting] ⟨[], []⟩ [plainRun "A鍵 B"]).1 =
            pre ++ Node.run (truncRun r (r.text.take idx)) ::
              Node.annot (create_ruby_element s.word s.ruby) :: Node.run ra :: rest ∧
          ra.rPr = r.rPr ∧
          ra.text = r.text.drop (idx + s.word.length) ∧
          ra.brk = false ∧
          (ra.spacePreserve = true ↔
            (r.text.drop (idx + s.word.length)).head? = some ' ' ∨
            (r.text.drop (idx + s.word.length)).getLast? = some ' ')) :=
  claim7_after_run_amended "all" [keySetting] [plainRun "A鍵 B"] ⟨[], []⟩ (by rfl)

/-- Witness for C10: a concrete pass over a run that carries a page-break
marker and the text "鍵X". -/
theorem claim10_marker_removed_witness :
    ∃ (pre : List Node) (r : Run) (rest : List Node) (s : RubySetting) (idx : Nat) (rb : Run),
      [Node.run ⟨none, true, false, "鍵X".data⟩] = pre ++ Node.run r :: rest ∧
      findSub s.word r.text = some idx ∧
      (scanPass "all" [keySetting] ⟨[], []⟩ [Node.run ⟨none, true, false, "鍵X".data⟩]).1 =
        (pre ++ Node.run rb ::
          Node.annot (create_ruby_element s.word s.ruby) ::
          (if (r.text.drop (idx + s.word.length)).isEmpty = true then []
           else [Node.run (mkAfterRun r (r.text.drop (idx + s.word.length)))])) ++ rest ∧
      rb.text = r.text.take idx ∧
      rb.rPr = r.rPr ∧
      rb.brk = false ∧
      (mkAfterRun r (r.text.drop (idx + s.word.length))).brk = false :=
  claim10_marker_removed "all" [keySetting] [Node.run ⟨none, true, false, "鍵X".data⟩]
    ⟨[], []⟩ (by rfl)

/-! ## Modes other than once and per_page behave as all -/

theorem skipRule_other (mode : String) (h1 : mode ≠ "once") (h2 : mode ≠ "per_page")
    (st : TrackState) (w : List Char) : skipRule mode st w = false := by
  have b1 : (mode == "once") = false := beq_eq_false_iff_ne.mpr h1
  have b2 : (mode == "per_page") = false := beq_eq_false_iff_ne.mpr h2
  simp [skipRule, b1, b2]

theorem markApplied_other (mode : String) (h1 : mode ≠ "once") (h2 : mode ≠ "per_page")
    (w : List Char) (st : TrackState) : markApplied mode w st = st := by
  have b1 : (mode == "once") = false := beq_eq_false_iff_ne.mpr h1
  have b2 : (mode == "per_page") = false := beq_eq_false_iff_ne.mpr h2
  simp [markApplied, b1, b2]

theorem all_ne_once : ("all" : String) ≠ "once" := by decide

theorem all_ne_per_page : ("all" : String) ≠ "per_page" := by decide

theorem findRuleMatch_other_eq (mode : String) (h1 : mode ≠ "once") (h2 : mode ≠ "per_page")
    (st st' : TrackState) (text : List Char) : ∀ (l : List RubySetting),
    findRuleMatch mode st text l = findRuleMatch "all" st' text l
  | [] => rfl
  | a :: l => by
    simp only [findRuleMatch, skipRule_other mode h1 h2,
      skipRule_other "all" all_ne_once all_ne_per_page]
    rw [findRuleMatch_other_eq mode h1 h2 st st' text l]

theorem scanPass_other_eq (mode : String) (h1 : mode ≠ "once") (h2 : mode ≠ "per_page")
    (sorted : List RubySetting) : ∀ (ns : List Node) (st : TrackState),
    scanPass mode sorted st ns = scanPass "all" sorted st ns
  | [], _ => rfl
  | Node.annot x :: tail, st => by
    rw [scanPass_annot, scanPass_annot, scanPass_other_eq mode h1 h2 sorted tail st]
  | Node.run r0 :: tail, st => by
    by_cases hemp : r0.text.isEmpty = true
    · rw [scanPass_run_empty mode sorted st r0 tail hemp,
        scanPass_run_empty "all" sorted st r0 tail hemp,
        scanPass_other_eq mode h1 h2 sorted tail _]
    · rw [Bool.not_eq_true] at hemp
      rcases hfm : findRuleMatch "all" (if r0.brk then { st with pageApplied := [] } else st)
          r0.text sorted with _ | ⟨s, idx⟩
      · have hfm' := (findRuleMatch_other_eq mode h1 h2
          (if r0.brk then { st with pageApplied := [] } else st)
          (if r0.brk then { st with pageApplied := [] } else st) r0.text sorted).trans hfm
        rw [scanPass_run_nomatch mode sorted st r0 tail hemp hfm',
          scanPass_run_nomatch "all" sorted st r0 tail hemp hfm,
          scanPass_other_eq mode h1 h2 sorted tail _]
      · have hfm' := (findRuleMatch_other_eq mode h1 h2
          (if r0.brk then { st with pageApplied := [] } else st)
          (if r0.brk then { st with pageApplied := [] } else st) r0.text sorted).trans hfm
        rw [scanPass_run_match mode sorted st r0 tail s idx hemp hfm',
          scanPass_run_match "all" sorted st r0 tail s idx hemp hfm]
        simp only [spliceRun, markApplied_other mode h1 h2,
          markApplied_other "all" all_ne_once all_ne_per_page]

theorem processPara_other_eq (mode : String) (h1 : mode ≠ "once") (h2 : mode ≠ "per_page")
    (sorted : List RubySetting) : ∀ (fuel : Nat) (st : TrackState) (ns : List Node),
    processPara mode sorted fuel st ns = processPara "all" sorted fuel st ns
  | 0, _, _ => rfl
  | fuel + 1, st, ns => by
    rw [processPara_succ, processPara_succ, scanPass_other_eq mode h1 h2 sorted ns st,
      processPara_other_eq mode h1 h2 sorted fuel]

theorem processDoc_other_eq (mode : String) (h1 : mode ≠ "once") (h2 : mode ≠ "per_page")
    (sorted : List RubySetting) (fuel : Nat) : ∀ (paras : List (List Node)) (st : TrackState),
    processDoc mode sorted fuel st paras = processDoc "all" sorted fuel st paras
  | [], _ => rfl
  | p :: ps, st => by
    rw [processDoc, processDoc, processPara_other_eq mode h1 h2 sorted fuel st p]
    rcases hpp : processPara "all" sorted fuel st p with _ | ⟨p', st'⟩
    · rfl
    · show (match processDoc mode sorted fuel st' ps with
          | none => none
          | some (ps', st'') => some (p' :: ps', st'')) =
        (match processDoc "all" sorted fuel st' ps with
          | none => none
          | some (ps', st'') => some (p' :: ps', st''))
      rw [processDoc_other_eq mode h1 h2 sorted fuel ps st']

/-! ## After processing, no target word remains in run text -/

theorem processPara_final_pass (mode : String) (sorted : List RubySetting) :
    ∀ (fuel : Nat) (st : TrackState) (ns ns' : List Node) (st' : TrackState),
    processPara mode sorted fuel st ns = some (ns', st') →
    ∃ stF, (scanPass mode sorted stF ns').2.2 = false
  | 0, st, ns, ns', st', h => by simp [processPara] at h
  | fuel + 1, st, ns, ns', st', h => by
    rw [processPara_succ] at h
    by_cases hm : (scanPass mode sorted st ns).2.2 = true
    · rw [if_pos hm] at h
      exact processPara_final_pass mode sorted fuel _ _ _ _ h
    · rw [if_neg hm] at h
      rw [Bool.not_eq_true] at hm
      have hfst : (scanPass mode sorted st ns).1 = ns' :=
        congrArg Prod.fst (Option.some.inj h)
      refine ⟨st, ?_⟩
      rw [← hfst, scanPass_false_nodes mode sorted ns st hm]
      exact hm

theorem scanPass_false_no_occurrence (mode : String) (h1 : mode ≠ "once")
    (h2 : mode ≠ "per_page") (sorted : List RubySetting)
    (hwne : ∀ s ∈ sorted, s.word ≠ []) :
    ∀ (ns : List Node) (st : TrackState), (scanPass mode sorted st ns).2.2 = false →
    ∀ (r0 : Run), Node.run r0 ∈ ns → ∀ s ∈ sorted, findSub s.word r0.text = none
  | [], _, _, _, hmem => by simp at hmem
  | Node.annot x :: tail, st, h, r0, hmem => by
    rw [scanPass_annot] at h
    rcases List.mem_cons.mp hmem with hx | hmem'
    · exact Node.noConfusion hx
    · exact scanPass_false_no_occurrence mode h1 h2 sorted hwne tail st h r0 hmem'
  | Node.run rr :: tail, st, h, r0, hmem => by
    by_cases hemp : rr.text.isEmpty = true
    · rw [scanPass_run_empty mode sorted st rr tail hemp] at h
      rcases List.mem_cons.mp hmem with hx | hmem'
      · obtain rfl : rr = r0 := Node.run.inj hx.symm
        intro s hs
        rw [List.isEmpty_iff.mp hemp]
        have : s.word ≠ [] := hwne s hs
        rcases hsw : s.word with _ | ⟨c, cs⟩
        · exact absurd hsw this
        · rfl
      · exact scanPass_false_no_occurrence mode h1 h2 sorted hwne tail _ h r0 hmem'
    · rw [Bool.not_eq_true] at hemp
      rcases hfm : findRuleMatch mode (if rr.brk then { st with pageApplied := [] } else st)
          rr.text sorted with _ | ⟨s, idx⟩
      · rw [scanPass_run_nomatch mode sorted st rr tail hemp hfm] at h
        rcases List.mem_cons.mp hmem with hx | hmem'
        · obtain rfl : rr = r0 := Node.run.inj hx.symm
          intro s hs
          exact findRuleMatch_none sorted mode _ rr.text hfm s hs
            (skipRule_other mode h1 h2 _ s.word)
        · exact scanPass_false_no_occurrence mode h1 h2 sorted hwne tail _ h r0 hmem'
      · rw [scanPass_run_match mode sorted st rr tail s idx hemp hfm] at h
        simp [spliceRun] at h

theorem processDoc_paras_from (mode : String) (sorted : List RubySetting) (fuel : Nat) :
    ∀ (paras : List (List Node)) (st : TrackState) (res : List (List Node)) (st'' : TrackState),
    processDoc mode sorted fuel st paras = some (res, st'') →
    ∀ p ∈ res, ∃ st0 p0 st1, processPara mode sorted fuel st0 p0 = some (p, st1)
  | [], st, res, st'', h => by
    have hres : [] = res := congrArg Prod.fst (Option.some.inj h)
    intro p hp
    rw [← hres] at hp
    simp at hp
  | q :: ps, st, res, st'', h => by
    rcases hp : processPara mode sorted fuel st q with _ | ⟨q', st'⟩
    · rw [processDoc, hp] at h
      exact Option.noConfusion h
    · rw [processDoc, hp] at h
      have h2 : (match processDoc mode sorted fuel st' ps with
          | none => none
          | some (ps', st2) => some (q' :: ps', st2)) = some (res, st'') := h
      rcases hd : processDoc mode sorted fuel st' ps with _ | ⟨ps', st2⟩
      · rw [hd] at h2
        exact Option.noConfusion h2
      · rw [hd] at h2
        have h3 : some (q' :: ps', st2) = some (res, st'') := h2
        have hres : q' :: ps' = res := congrArg Prod.fst (Option.some.inj h3)
        intro p hpmem
        rw [← hres] at hpmem
        rcases List.mem_cons.mp hpmem with rfl | hmem'
        · exact ⟨st, q, st', hp⟩
        · exact processDoc_paras_from mode sorted fuel ps st' ps' st2 hd p hmem'

/-- C9: for every mode value other than "once" and "per_page" — the
documented "all" and any unrecognized string — the engine's output is
identical to "all" mode (first conjunct: the mode string is consulted only by
equality against "once" and "per_page", so no eligibility state is consulted
or updated), and every in-run occurrence of every (non-empty) target word is
consumed by an annotation: when processing finishes, no run text in the
output contains any target word at all (second conjunct). -/
theorem claim9_unknown_mode_is_all (mode : String) (h1 : mode ≠ "once")
    (h2 : mode ≠ "per_page") (paras : List (List Node)) (rules : List RubySetting)
    (fuel : Nat) :
    apply_ruby_to_document paras rules mode fuel =
      apply_ruby_to_document paras rules "all" fuel ∧
    (∀ res, apply_ruby_to_document paras rules mode fuel = some res →
      (∀ s ∈ rules, s.word ≠ []) →
      ∀ p ∈ res, ∀ r0 : Run, Node.run r0 ∈ p → ∀ s ∈ rules,
        findSub s.word r0.text = none) := by
  constructor
  · simp only [apply_ruby_to_document]
    rw [processDoc_other_eq mode h1 h2 (sortSettings rules) fuel paras ⟨[], []⟩]
  · intro res happ hwne p hp r0 hr0 s hs
    have hwne' : ∀ s ∈ sortSettings rules, s.word ≠ [] :=
      fun t ht => hwne t (mem_sortSettings.mp ht)
    simp only [apply_ruby_to_document] at happ
    rcases hd : processDoc mode (sortSettings rules) fuel ⟨[], []⟩ paras with _ | ⟨res0, stf⟩
    · rw [hd] at happ
      exact Option.noConfusion happ
    · rw [hd] at happ
      have hres : res0 = res := by simpa using happ
      subst hres
      obtain ⟨st0, p0, st1, hpp⟩ := processDoc_paras_from mode (sortSettings rules) fuel
        paras ⟨[], []⟩ res0 stf hd p hp
      obtain ⟨stF, hfalse⟩ := processPara_final_pass mode (sortSettings rules) fuel
        st0 p0 p st1 hpp
      exact scanPass_false_no_occurrence mode h1 h2 (sortSettings rules) hwne' p stF
        hfalse r0 hr0 s (mem_sortSettings.mpr hs)

/-- Witness for C9: the mode string "bogus" on a concrete document. -/
theorem claim9_unknown_mode_is_all_witness :
    (apply_ruby_to_document [[plainRun "鍵A"]] [keySetting] "bogus" 5 =
      apply_ruby_to_document [[plainRun "鍵A"]] [keySetting] "all" 5) ∧
    (∀ res, apply_ruby_to_document [[plainRun "鍵A"]] [keySetting] "bogus" 5 = some res →
      (∀ s ∈ [keySetting], s.word ≠ []) →
      ∀ p ∈ res, ∀ r0 : Run, Node.run r0 ∈ p → ∀ s ∈ [keySetting],
        findSub s.word r0.text = none) :=
  claim9_unknown_mode_is_all "bogus" (by decide) (by decide) [[plainRun "鍵A"]] [keySetting] 5

end WordRuby
